import Mathlib

/-!
Verification of the edit-history and key-command interpreter of the
svelte-simple-code-editor component (src/unnamed/part_001).

Strings are modelled as `List Char`, JavaScript numbers that can be
negative (selection offsets, the history offset, timestamps) as `Int`.
Regex-driven matching is re-expressed as explicit string scanning, and
`Date.now()` is passed in as an explicit timestamp argument.
-/

namespace SCE

/-- Strings of the component are modelled as lists of characters. -/
abbrev Str := List Char

/-- JavaScript `array[i]` / `string[i]`: `undefined` (here `none`) outside bounds,
including negative indices. -/
def getIdx (l : List α) (i : Int) : Option α :=
  if 0 ≤ i then l.get? i.toNat else none

/-- JavaScript `array[i] = x` for an index that is known to be in bounds
(the component only ever assigns to existing slots). -/
def setIdx (l : List α) (i : Int) (x : α) : List α :=
  if 0 ≤ i then l.set i.toNat x else l

/-- JavaScript `Array.prototype.slice(a, b)`: clamp the endpoints into
`[0, length]` (negative indices count from the end) and take the elements
in between. -/
def jsSlice (l : List α) (a b : Int) : List α :=
  let n : Int := l.length
  let s := if a < 0 then max (n + a) 0 else min a n
  let e := if b < 0 then max (n + b) 0 else min b n
  (l.drop s.toNat).take (e - s).toNat

/-- JavaScript `String.prototype.substring(a, b)`: clamp both endpoints into
`[0, length]`, swap them if needed, and take the characters in between. -/
def jsSubstring (s : Str) (a b : Int) : Str :=
  let n : Int := s.length
  let a' := min (max a 0) n
  let b' := min (max b 0) n
  let lo := min a' b'
  let hi := max a' b'
  (s.drop lo.toNat).take (hi - lo).toNat

/-- JavaScript `text.split('\n')`: always a non-empty list of
newline-free pieces. -/
def splitNl : Str → List Str
  | [] => [[]]
  | c :: cs =>
    if c = '\n' then [] :: splitNl cs
    else
      match splitNl cs with
      | [] => [[c]]
      | l :: ls => (c :: l) :: ls

/-- JavaScript `lines.join('\n')`. -/
def joinNl : List Str → Str
  | [] => []
  | [l] => l
  | l :: ls => l ++ '\n' :: joinNl ls

/-- `getLines(text, position)` of the source:
`text.substring(0, position).split('\n')`. -/
def getLines (text : Str) (position : Int) : List Str :=
  splitNl (jsSubstring text 0 position)

/-- A character matched by the `[a-z0-9]` class of the coalescing regex
`/[^a-z0-9]([a-z0-9]+)$/i` (the `i` flag also admits upper case). -/
def isWordChar (c : Char) : Bool :=
  ('a' ≤ c && c ≤ 'z') || ('A' ≤ c && c ≤ 'Z') || ('0' ≤ c && c ≤ '9')

/-- The maximal trailing run of `[A-Za-z0-9]` characters of a string. -/
def trailingRun (s : Str) : Str :=
  (s.reverse.takeWhile isWordChar).reverse

/-- `s.match(/[^a-z0-9]([a-z0-9]+)$/i)?.[1]`, re-expressed by scanning:
the regex matches exactly when the trailing alphanumeric run is non-empty
and is preceded by at least one (non-alphanumeric) character, and its
group 1 is that run. -/
def matchLastWord (s : Str) : Option Str :=
  let run := trailingRun s
  if run ≠ [] ∧ run.length < s.length then some run else none

/-- One coherent state of the editable text plus selection
(`Rec` in the source). -/
structure Rec where
  value : Str
  selectionStart : Int
  selectionEnd : Int
deriving DecidableEq, Repr

/-- A history entry: a `Rec` plus the `Date.now()` timestamp recorded with it. -/
structure HistEntry extends Rec where
  timestamp : Int
deriving DecidableEq, Repr

/-- The undo/redo history: a stack of entries and the cursor `offset`
(`-1` means empty). -/
structure History where
  stack : List HistEntry
  offset : Int
deriving DecidableEq, Repr

def HISTORY_LIMIT : Int := 100
def HISTORY_TIME_GAP : Int := 3000

/-- The word-merge test of `recordChange`: both the previous entry and the
incoming record must have a regex match of `/[^a-z0-9]([a-z0-9]+)$/i` on the
line before their caret, and the incoming run must start with the previous
run (`previous && current?.[1]?.startsWith(previous[1])`). -/
def wordMergeOk (last record : Rec) : Bool :=
  match matchLastWord ((getLines last.value last.selectionStart).getLastD []),
        matchLastWord ((getLines record.value record.selectionStart).getLastD []) with
  | some previous, some current => previous.isPrefixOf current
  | _, _ => false

/-- The first half of `recordChange`: when the stack is non-empty and the
cursor is not `-1`, drop the redo branch (`stack.slice(0, offset + 1)`) and
enforce `HISTORY_LIMIT` by dropping `extras` entries from the front of the
original stack and shifting the offset down (clamped at 0). -/
def truncateHistory (h : History) : History :=
  if h.stack.length ≠ 0 ∧ h.offset > -1 then
    let stack1 := jsSlice h.stack 0 (h.offset + 1)
    let count : Int := stack1.length
    if count > HISTORY_LIMIT then
      let extras := count - HISTORY_LIMIT
      ⟨jsSlice h.stack extras count, max (h.offset - extras) 0⟩
    else
      ⟨stack1, h.offset⟩
  else h

/-- `stack.push({...record, timestamp}); offset++`. -/
def pushEntry (h : History) (record : Rec) (timestamp : Int) : History :=
  ⟨h.stack ++ [⟨record, timestamp⟩], h.offset + 1⟩

/-- `recordChange(record, overwrite)` of the source, with `Date.now()`
passed in as `timestamp`.  After truncation, if `overwrite` is set, the
entry at the (new) offset exists, and was recorded less than
`HISTORY_TIME_GAP` ago, and the word-merge test passes, the top entry is
overwritten in place; otherwise the record is pushed. -/
def recordChange (h : History) (record : Rec) (overwrite : Bool) (timestamp : Int) : History :=
  let h1 := truncateHistory h
  if overwrite then
    match getIdx h1.stack h1.offset with
    | some last =>
      if timestamp - last.timestamp < HISTORY_TIME_GAP then
        if wordMergeOk last.toRec record then
          ⟨setIdx h1.stack h1.offset ⟨record, timestamp⟩, h1.offset⟩
        else pushEntry h1 record timestamp
      else pushEntry h1 record timestamp
    | none => pushEntry h1 record timestamp
  else pushEntry h1 record timestamp

/-- The whole editor state: the history, the live textarea surface
(`value`, `selectionStart`, `selectionEnd`), and the payloads of the
`value-change` events dispatched so far. -/
structure EditorState where
  history : History
  surface : Rec
  events : List Str
deriving DecidableEq, Repr

/-- `updateInput(record)`: write the record back onto the surface and
dispatch `value-change`. -/
def updateInput (s : EditorState) (record : Rec) : EditorState :=
  ⟨s.history, record, s.events ++ [record.value]⟩

/-- The editor state right after mount: `recordCurrentState` pushes the
surface's pre-existing content into the fresh history. -/
def mount (r0 : Rec) (t0 : Int) : EditorState :=
  ⟨recordChange ⟨[], -1⟩ r0 false t0, r0, []⟩

/-- `handleChange`: a native (uncaptured) change already mutated the surface;
record it with `overwrite = true` and dispatch `value-change`. -/
def handleChange (s : EditorState) (record : Rec) (timestamp : Int) : EditorState :=
  ⟨recordChange s.history record true timestamp, record, s.events ++ [record.value]⟩

/-- `undoEdit()`: if `stack[offset - 1]` exists, apply it to the surface and
decrement the offset (clamped at 0); otherwise do nothing. -/
def undoEdit (s : EditorState) : EditorState :=
  match getIdx s.history.stack (s.history.offset - 1) with
  | some record =>
    let s' := updateInput s record.toRec
    ⟨⟨s'.history.stack, max (s.history.offset - 1) 0⟩, s'.surface, s'.events⟩
  | none => s

/-- `redoEdit()`: if `stack[offset + 1]` exists, apply it to the surface and
increment the offset (clamped at `length - 1`); otherwise do nothing. -/
def redoEdit (s : EditorState) : EditorState :=
  match getIdx s.history.stack (s.history.offset + 1) with
  | some record =>
    let s' := updateInput s record.toRec
    ⟨⟨s'.history.stack, min (s.history.offset + 1) ((s.history.stack.length : Int) - 1)⟩,
      s'.surface, s'.events⟩
  | none => s

/-- `applyEdits(record)`: back-patch the selection of the entry at `offset`
from the live surface, record the new edit (no coalescing), and apply it to
the surface. -/
def applyEdits (s : EditorState) (record : Rec) (timestamp : Int) : EditorState :=
  let h1 :=
    match getIdx s.history.stack s.history.offset with
    | some last =>
      (⟨setIdx s.history.stack s.history.offset
          ⟨⟨last.value, s.surface.selectionStart, s.surface.selectionEnd⟩, last.timestamp⟩,
        s.history.offset⟩ : History)
    | none => s.history
  let h2 := recordChange h1 record false timestamp
  updateInput ⟨h2, s.surface, s.events⟩ record

/-- `const tabCharacter = (insertSpaces ? ' ' : '\t').repeat(tabSize)`. -/
def tabCharacter (insertSpaces : Bool) (tabSize : Nat) : Str :=
  List.replicate tabSize (if insertSpaces then ' ' else '\t')

/-- A character of the JavaScript `\s` class (the ones relevant here). -/
def jsIsSpace (c : Char) : Bool :=
  c == ' ' || c == '\t' || c == '\n' || c == '\r' ||
  c == '\x0b' || c == '\x0c' || c == '\xa0'

/-- The `.map((line, i) => ...)` of the unindent branch: strip the leading
`tabCharacter` from each line whose index lies in `[startLine, endLine]`
(`k` is the index of the first line, 0 at the top-level call). -/
def stripMap (tabCharacter : Str) (startLine endLine : Int) (k : Nat) (lines : List Str) :
    List Str :=
  (lines.enumFrom k).map fun p =>
    if startLine ≤ (p.1 : Int) ∧ (p.1 : Int) ≤ endLine ∧ tabCharacter.isPrefixOf p.2
    then p.2.drop tabCharacter.length else p.2

/-- The shift+Tab (unindent) branch of `handleKeyDown`: strip a leading
`tabCharacter` from each selected line, and move the selection endpoints
left accordingly; `none` when the text is unchanged (no record made). -/
def unindentRecord (tabCharacter : Str) (value : Str)
    (selectionStart selectionEnd : Int) : Option Rec :=
  let linesBeforeCaret := getLines value selectionStart
  let startLine : Int := (linesBeforeCaret.length : Int) - 1
  let endLine : Int := ((getLines value selectionEnd).length : Int) - 1
  let nextValue := joinNl (stripMap tabCharacter startLine endLine 0 (splitNl value))
  if value ≠ nextValue then
    let startLineText := (getIdx linesBeforeCaret startLine).getD []
    some ⟨nextValue,
      if tabCharacter.isPrefixOf startLineText
      then selectionStart - tabCharacter.length else selectionStart,
      selectionEnd - ((value.length : Int) - (nextValue.length : Int))⟩
  else none

/-- The Tab (indent, non-empty selection) branch of `handleKeyDown`:
prepend `tabCharacter` to each selected line and move the selection
endpoints right accordingly. -/
def indentRecord (tabCharacter : Str) (value : Str)
    (selectionStart selectionEnd : Int) : Rec :=
  let linesBeforeCaret := getLines value selectionStart
  let startLine : Int := (linesBeforeCaret.length : Int) - 1
  let endLine : Int := ((getLines value selectionEnd).length : Int) - 1
  let startLineText := (getIdx linesBeforeCaret startLine).getD []
  ⟨joinNl (((splitNl value).enumFrom 0).map fun p =>
      if startLine ≤ (p.1 : Int) ∧ (p.1 : Int) ≤ endLine
      then tabCharacter ++ p.2 else p.2),
    if startLineText.any (fun c => !jsIsSpace c)
    then selectionStart + tabCharacter.length else selectionStart,
    selectionEnd + (tabCharacter.length : Int) * (endLine - startLine + 1)⟩

/-- The single-quote character (written via its code point to keep the
source free of quote-literal pitfalls). -/
def quoteChar : Char := Char.ofNat 39

/-- The backtick character. -/
def backtickChar : Char := Char.ofNat 96

/-- The `PAIRS` table of open/close characters. -/
def PAIRS (k : Char) : Option (Char × Char) :=
  if k = '(' then some ('(', ')')
  else if k = '[' then some ('[', ']')
  else if k = '{' then some ('{', '}')
  else if k = '"' then some ('"', '"')
  else if k = quoteChar then some (quoteChar, quoteChar)
  else if k = backtickChar then some (backtickChar, backtickChar)
  else none

/-- The bracket branch of `handleKeyDown` for an empty selection: splice
both characters of the pair at the caret and collapse the caret between
them. -/
def insertPairRecord (k : Char) (value : Str)
    (selectionStart selectionEnd : Int) : Option Rec :=
  match PAIRS k with
  | some chars =>
    some ⟨jsSubstring value 0 selectionStart ++
            chars.1 :: chars.2 :: jsSubstring value selectionEnd (value.length : Int),
      selectionStart + 1, selectionStart + 1⟩
  | none => none

/-- The operations that mutate a reachable `History`: `recordChange`
(push or coalesce), `undoEdit`, `redoEdit`. -/
inductive Op where
  | record (r : Rec) (overwrite : Bool) (timestamp : Int)
  | undo
  | redo
deriving DecidableEq, Repr

/-- Run one operation on the editor state. -/
def runOp (s : EditorState) : Op → EditorState
  | .record r ov t => ⟨recordChange s.history r ov t, s.surface, s.events⟩
  | .undo => undoEdit s
  | .redo => redoEdit s

/-- Run a sequence of operations. -/
def runOps (s : EditorState) (ops : List Op) : EditorState :=
  ops.foldl runOp s

/-- The editor state at creation: empty history, empty surface. -/
def initES : EditorState := ⟨⟨[], -1⟩, ⟨[], 0, 0⟩, []⟩

/-- Apply a list of structural edits (each a record plus its timestamp)
through `applyEdits`. -/
def applyEditList (s : EditorState) (edits : List (Rec × Int)) : EditorState :=
  edits.foldl (fun s p => applyEdits s p.1 p.2) s

/-- Apply a list of native changes through `handleChange`. -/
def natChanges (s : EditorState) (cs : List (Rec × Int)) : EditorState :=
  cs.foldl (fun s p => handleChange s p.1 p.2) s

/-- A chain of native changes: each arrives at or after the previous one,
within `HISTORY_TIME_GAP` of it, and passes the word-merge test against it. -/
def chainOK (prev : Rec) (prevT : Int) : List (Rec × Int) → Prop
  | [] => True
  | (r, t) :: rest =>
    prevT ≤ t ∧ t - prevT < HISTORY_TIME_GAP ∧ wordMergeOk prev r = true ∧ chainOK r t rest

/-- The invariant of reachable histories used throughout: the offset is at
least `-1`, strictly below the stack length, and is `-1` only on the empty
stack. -/
def histInv (h : History) : Prop :=
  -1 ≤ h.offset ∧ h.offset < (h.stack.length : Int) ∧ (h.offset = -1 → h.stack = [])

end SCE

namespace SCE

theorem getIdx_neg (l : List α) {i : Int} (h : i < 0) : getIdx l i = none := by
  simp [getIdx, not_le.mpr h]

theorem getIdx_coe (l : List α) (n : Nat) : getIdx l (n : Int) = l.get? n := by
  simp [getIdx]

theorem getIdx_nil (i : Int) : getIdx ([] : List α) i = none := by
  unfold getIdx
  split <;> simp

theorem getIdx_len (l : List α) : getIdx l (l.length : Int) = none := by
  rw [getIdx_coe]
  simp

theorem jsSubstring_zero (s : Str) {b : Int} (_hb : 0 ≤ b) :
    jsSubstring s 0 b = s.take b.toNat := by
  simp only [jsSubstring]
  have h1 : (((0 : Int) ⊔ 0) ⊓ (List.length s : Int) ⊓
      ((b ⊔ 0) ⊓ (List.length s : Int))).toNat = 0 := by
    omega
  have h2 : (((0 : Int) ⊔ 0) ⊓ (List.length s : Int) ⊔ (b ⊔ 0) ⊓ (List.length s : Int) -
      ((0 : Int) ⊔ 0) ⊓ (List.length s : Int) ⊓ ((b ⊔ 0) ⊓ (List.length s : Int))).toNat
      = min b.toNat s.length := by
    omega
  rw [h1, h2, List.drop_zero, List.take_eq_take]
  omega

theorem jsSubstring_from (s : Str) {a : Int} (ha : 0 ≤ a) (ha' : a ≤ (s.length : Int)) :
    jsSubstring s a (s.length : Int) = s.drop a.toNat := by
  simp only [jsSubstring]
  have h1 : ((a ⊔ 0) ⊓ (List.length s : Int) ⊓
      (((List.length s : Int) ⊔ 0) ⊓ (List.length s : Int))).toNat = a.toNat := by
    omega
  have h2 : ((a ⊔ 0) ⊓ (List.length s : Int) ⊔ ((List.length s : Int) ⊔ 0) ⊓ (List.length s : Int) -
      (a ⊔ 0) ⊓ (List.length s : Int) ⊓ (((List.length s : Int) ⊔ 0) ⊓ (List.length s : Int))).toNat
      = s.length - a.toNat := by
    omega
  rw [h1, h2]
  apply List.take_of_length_le
  simp

/-- Claim C6 fails as stated: with `insertSpaces = false` and `tabSize = 2`,
the derived `tabCharacter` is two tab characters, not a single tab. -/
theorem C6_counterexample : tabCharacter false 2 ≠ ['\t'] := by
  decide

/-- Claim C6, amended: when `insertSpaces` is false the derived
`tabCharacter` is the tab character repeated `tabSize` times (all its
characters are tabs and its length is `tabSize`); it is a single tab
exactly when `tabSize = 1`. -/
theorem C6_tab_character (tabSize : Nat) (h : 1 ≤ tabSize) :
    (tabCharacter false tabSize).length = tabSize ∧
    (∀ c ∈ tabCharacter false tabSize, c = '\t') ∧
    (tabCharacter false tabSize = ['\t'] ↔ tabSize = 1) := by
  refine ⟨by simp [tabCharacter], fun c hc => ?_, ?_⟩
  · simpa [tabCharacter] using (List.eq_of_mem_replicate hc)
  · constructor
    · intro he
      have := congrArg List.length he
      simpa [tabCharacter] using this
    · intro he
      subst he
      rfl

theorem C6_tab_character_witness :
    (tabCharacter false 4).length = 4 ∧
    (∀ c ∈ tabCharacter false 4, c = '\t') ∧
    (tabCharacter false 4 = ['\t'] ↔ 4 = 1) :=
  C6_tab_character 4 (by decide)

/-- Claim C8: for every value and caret with an empty selection inside the
text, pressing one of the pair keys splices both the open and the close
character at the caret and collapses the caret between them, at
`selectionStart + 1`. -/
theorem C8_insert_pair (value : Str) (ss : Int) (k : Char) (chars : Char × Char)
    (hk : PAIRS k = some chars) (h0 : 0 ≤ ss) (hlen : ss ≤ (value.length : Int)) :
    insertPairRecord k value ss ss =
      some ⟨value.take ss.toNat ++ chars.1 :: chars.2 :: value.drop ss.toNat,
        ss + 1, ss + 1⟩ := by
  unfold insertPairRecord
  rw [hk, jsSubstring_zero value h0, jsSubstring_from value h0 hlen]

theorem C8_insert_pair_witness :
    insertPairRecord quoteChar ("x".toList) 1 1 =
      some ⟨['x', quoteChar, quoteChar], 2, 2⟩ := by
  have h := C8_insert_pair ("x".toList) 1 quoteChar (quoteChar, quoteChar)
    (by decide) (by decide) (by decide)
  simpa using h

/-- Claim C9: `undoEdit` at the oldest entry (offset 0, or empty history)
and `redoEdit` at the newest entry (offset = length - 1) are no-ops: the
entire editor state — history, surface, and dispatched events — is
returned unchanged, so no `value-change` notification is emitted. -/
theorem C9_undo_redo_noop (s : EditorState) :
    ((s.history.offset = 0 ∨ s.history.stack = []) → undoEdit s = s) ∧
    (s.history.offset = (s.history.stack.length : Int) - 1 → redoEdit s = s) := by
  constructor
  · rintro (h | h)
    · unfold undoEdit
      rw [h]
      rw [getIdx_neg s.history.stack (by norm_num)]
    · unfold undoEdit
      rw [h, getIdx_nil]
  · intro h
    unfold redoEdit
    rw [h]
    have : (s.history.stack.length : Int) - 1 + 1 = (s.history.stack.length : Int) := by ring
    rw [this, getIdx_len]

theorem C9_undo_redo_noop_witness :
    undoEdit ⟨⟨[⟨⟨[], 0, 0⟩, 0⟩], 0⟩, ⟨[], 0, 0⟩, []⟩ = ⟨⟨[⟨⟨[], 0, 0⟩, 0⟩], 0⟩, ⟨[], 0, 0⟩, []⟩ ∧
    redoEdit ⟨⟨[⟨⟨[], 0, 0⟩, 0⟩], 0⟩, ⟨[], 0, 0⟩, []⟩ = ⟨⟨[⟨⟨[], 0, 0⟩, 0⟩], 0⟩, ⟨[], 0, 0⟩, []⟩ :=
  ⟨(C9_undo_redo_noop _).1 (Or.inl rfl), (C9_undo_redo_noop _).2 (by decide)⟩

/-- Claim C7: indenting `"ab\ncd"` with `tabSize = 2`, `insertSpaces = true`
and any selection spanning both lines yields `"  ab\n  cd"`, and unindenting
that result (at the selection the indent produced) yields `"ab\ncd"` back
with the original selection bounds restored. -/
theorem C7_indent_round_trip :
    ∀ ss : Nat, ss < 3 → ∀ se : Nat, se < 6 → 3 ≤ se →
      (indentRecord (tabCharacter true 2) ("ab\ncd".toList) ss se).value
          = "  ab\n  cd".toList ∧
      unindentRecord (tabCharacter true 2)
          (indentRecord (tabCharacter true 2) ("ab\ncd".toList) ss se).value
          (indentRecord (tabCharacter true 2) ("ab\ncd".toList) ss se).selectionStart
          (indentRecord (tabCharacter true 2) ("ab\ncd".toList) ss se).selectionEnd
        = some ⟨"ab\ncd".toList, ss, se⟩ := by
  decide

theorem C7_indent_round_trip_witness :
    (indentRecord (tabCharacter true 2) ("ab\ncd".toList) 1 4).value
        = "  ab\n  cd".toList ∧
    unindentRecord (tabCharacter true 2)
        (indentRecord (tabCharacter true 2) ("ab\ncd".toList) 1 4).value
        (indentRecord (tabCharacter true 2) ("ab\ncd".toList) 1 4).selectionStart
        (indentRecord (tabCharacter true 2) ("ab\ncd".toList) 1 4).selectionEnd
      = some ⟨"ab\ncd".toList, 1, 4⟩ :=
  C7_indent_round_trip 1 (by decide) 4 (by decide) (by decide)

end SCE

namespace SCE

theorem jsSlice_zero (l : List α) {b : Int} (hb : 0 ≤ b) : jsSlice l 0 b = l.take b.toNat := by
  simp only [jsSlice]
  rw [if_neg (by omega : ¬ (0 : Int) < 0), if_neg (by omega : ¬ b < 0)]
  have h1 : ((0 : Int) ⊓ (l.length : Int)).toNat = 0 := by omega
  have h2 : (b ⊓ (l.length : Int) - (0 : Int) ⊓ (l.length : Int)).toNat = min b.toNat l.length := by
    omega
  rw [h1, h2, List.drop_zero, List.take_eq_take]
  omega

theorem jsSlice_drop_take (l : List α) {a b : Int} (ha : 0 ≤ a) (hab : a ≤ b)
    (hb : b ≤ (l.length : Int)) :
    jsSlice l a b = (l.drop a.toNat).take (b - a).toNat := by
  simp only [jsSlice]
  rw [if_neg (by omega : ¬ a < 0), if_neg (by omega : ¬ b < 0)]
  have h1 : (a ⊓ (l.length : Int)).toNat = a.toNat := by omega
  have h2 : (b ⊓ (l.length : Int) - a ⊓ (l.length : Int)).toNat = (b - a).toNat := by omega
  rw [h1, h2]

theorem trunc_spec (h : History) (hinv : histInv h) :
    (truncateHistory h).offset = ((truncateHistory h).stack.length : Int) - 1 ∧
    (truncateHistory h).stack.length ≤ 100 ∧
    (truncateHistory h).stack.length ≤ h.stack.length := by
  obtain ⟨hinv1, hinv2, hinv3⟩ := hinv
  simp only [truncateHistory]
  split
  case isFalse hc =>
    simp only [not_and_or, ne_eq, not_not, not_lt] at hc
    rcases hc with hc | hc
    · have hst : h.stack = [] := List.length_eq_zero.mp hc
      have hof : h.offset = -1 := by
        have := hinv3
        omega
      -- offset is -1 only on the empty stack; then -1 = 0 - 1
      refine ⟨?_, ?_, ?_⟩ <;> simp [hst, hof]
    · have hof : h.offset = -1 := by omega
      have hst : h.stack = [] := hinv3 hof
      refine ⟨?_, ?_, ?_⟩ <;> simp [hst, hof]
  case isTrue hc =>
    obtain ⟨hne, hpos⟩ := hc
    rw [jsSlice_zero h.stack (by omega : (0 : Int) ≤ h.offset + 1)]
    have hlen1 : (h.stack.take (h.offset + 1).toNat).length = (h.offset + 1).toNat := by
      simp [List.length_take]
      omega
    split
    case isTrue hbig =>
      rw [hlen1] at hbig ⊢
      rw [HISTORY_LIMIT] at hbig ⊢
      rw [jsSlice_drop_take h.stack (by omega) (by omega) (by omega)]
      refine ⟨?_, ?_, ?_⟩ <;> simp [List.length_take, List.length_drop] <;> try omega
    case isFalse hbig =>
      rw [hlen1] at hbig
      rw [HISTORY_LIMIT] at hbig
      refine ⟨?_, ?_, ?_⟩ <;> simp [hlen1, List.length_take] <;> try omega

end SCE

namespace SCE

theorem getIdx_some_bounds {l : List α} {i : Int} {x : α} (h : getIdx l i = some x) :
    0 ≤ i ∧ i.toNat < l.length := by
  unfold getIdx at h
  split at h
  case isTrue hi =>
    refine ⟨hi, ?_⟩
    by_contra hcon
    rw [List.get?_eq_none.mpr (by omega)] at h
    exact Option.noConfusion h
  case isFalse hi => exact Option.noConfusion h

theorem setIdx_length (l : List α) (i : Int) (x : α) : (setIdx l i x).length = l.length := by
  unfold setIdx
  split <;> simp

theorem recordChange_eq_merge (h : History) (r : Rec) (t : Int) (last : HistEntry)
    (hg : getIdx (truncateHistory h).stack (truncateHistory h).offset = some last)
    (hgap : t - last.timestamp < HISTORY_TIME_GAP)
    (hmerge : wordMergeOk last.toRec r = true) :
    recordChange h r true t =
      ⟨setIdx (truncateHistory h).stack (truncateHistory h).offset ⟨r, t⟩,
        (truncateHistory h).offset⟩ := by
  simp only [recordChange]
  rw [hg]
  simp only [eq_self_iff_true, ite_true]
  rw [if_pos hgap, if_pos hmerge]

theorem recordChange_false_eq (h : History) (r : Rec) (t : Int) :
    recordChange h r false t = pushEntry (truncateHistory h) r t := by
  simp only [recordChange]
  rfl

theorem recordChange_spec (h : History) (r : Rec) (ov : Bool) (t : Int) (hinv : histInv h) :
    (recordChange h r ov t).offset = ((recordChange h r ov t).stack.length : Int) - 1 ∧
    1 ≤ (recordChange h r ov t).stack.length ∧
    (recordChange h r ov t).stack.length ≤ h.stack.length + 1 ∧
    (recordChange h r ov t).stack.length ≤ 101 := by
  obtain ⟨ho, hl, hle⟩ := trunc_spec h hinv
  have hpush : ∀ rr tt, (pushEntry (truncateHistory h) rr tt).offset =
      ((pushEntry (truncateHistory h) rr tt).stack.length : Int) - 1 ∧
      1 ≤ (pushEntry (truncateHistory h) rr tt).stack.length ∧
      (pushEntry (truncateHistory h) rr tt).stack.length ≤ h.stack.length + 1 ∧
      (pushEntry (truncateHistory h) rr tt).stack.length ≤ 101 := by
    intro rr tt
    refine ⟨?_, ?_, ?_, ?_⟩ <;> simp [pushEntry] <;> omega
  cases ov
  · exact hpush r t
  · unfold recordChange
    cases hg : getIdx (truncateHistory h).stack (truncateHistory h).offset with
    | none => simp only [hg]; exact hpush r t
    | some last =>
      simp only [hg, eq_self_iff_true, ite_true]
      obtain ⟨hg1, hg2⟩ := getIdx_some_bounds hg
      by_cases hgap : t - last.timestamp < HISTORY_TIME_GAP
      · by_cases hmerge : wordMergeOk last.toRec r = true
        · rw [if_pos hgap, if_pos hmerge]
          refine ⟨?_, ?_, ?_, ?_⟩ <;> dsimp only <;> rw [setIdx_length] <;> omega
        · rw [if_pos hgap, if_neg hmerge]
          exact hpush r t
      · rw [if_neg hgap]
        exact hpush r t

theorem histInv_recordChange (h : History) (r : Rec) (ov : Bool) (t : Int) (hinv : histInv h) :
    histInv (recordChange h r ov t) := by
  obtain ⟨h1, h2, h3, h4⟩ := recordChange_spec h r ov t hinv
  refine ⟨by omega, by omega, fun hc => ?_⟩
  rw [hc] at h1
  omega

theorem histInv_undoEdit (s : EditorState) (hinv : histInv s.history) :
    histInv (undoEdit s).history := by
  unfold undoEdit
  cases hg : getIdx s.history.stack (s.history.offset - 1) with
  | none => exact hinv
  | some record =>
    obtain ⟨hg1, hg2⟩ := getIdx_some_bounds hg
    obtain ⟨h1, h2, h3⟩ := hinv
    simp only [histInv, updateInput]
    refine ⟨by omega, by omega, fun hx => absurd hx (by omega)⟩

theorem histInv_redoEdit (s : EditorState) (hinv : histInv s.history) :
    histInv (redoEdit s).history := by
  unfold redoEdit
  cases hg : getIdx s.history.stack (s.history.offset + 1) with
  | none => exact hinv
  | some record =>
    obtain ⟨hg1, hg2⟩ := getIdx_some_bounds hg
    obtain ⟨h1, h2, h3⟩ := hinv
    simp only [histInv, updateInput]
    refine ⟨by omega, by omega, fun hx => absurd hx (by omega)⟩

theorem applyEdits_history (s : EditorState) (r : Rec) (t : Int) (hinv : histInv s.history) :
    (applyEdits s r t).history.offset
      = ((applyEdits s r t).history.stack.length : Int) - 1 ∧
    histInv (applyEdits s r t).history := by
  unfold applyEdits
  cases hm : getIdx s.history.stack s.history.offset with
  | some last =>
    simp only [hm, updateInput]
    obtain ⟨hm1, hm2⟩ := getIdx_some_bounds hm
    obtain ⟨h1, h2, h3⟩ := hinv
    have hinv1 : histInv ⟨setIdx s.history.stack s.history.offset
        ⟨⟨last.value, s.surface.selectionStart, s.surface.selectionEnd⟩, last.timestamp⟩,
        s.history.offset⟩ := by
      unfold histInv
      dsimp only
      rw [setIdx_length]
      exact ⟨by omega, by omega, fun hx => absurd hx (by omega)⟩
    exact ⟨(recordChange_spec _ r false t hinv1).1, histInv_recordChange _ r false t hinv1⟩
  | none =>
    simp only [hm, updateInput]
    exact ⟨(recordChange_spec _ r false t hinv).1, histInv_recordChange _ r false t hinv⟩

end SCE

namespace SCE

theorem undoEdit_stack (s : EditorState) :
    (undoEdit s).history.stack = s.history.stack := by
  unfold undoEdit
  cases getIdx s.history.stack (s.history.offset - 1) <;> rfl

theorem redoEdit_stack (s : EditorState) :
    (redoEdit s).history.stack = s.history.stack := by
  unfold redoEdit
  cases getIdx s.history.stack (s.history.offset + 1) <;> rfl

theorem runOp_histInv (s : EditorState) (op : Op) (hinv : histInv s.history) :
    histInv (runOp s op).history := by
  cases op with
  | record r ov t => exact histInv_recordChange s.history r ov t hinv
  | undo => exact histInv_undoEdit s hinv
  | redo => exact histInv_redoEdit s hinv

theorem runOp_len (s : EditorState) (op : Op) (hinv : histInv s.history)
    (hlen : s.history.stack.length ≤ 101) :
    (runOp s op).history.stack.length ≤ 101 := by
  cases op with
  | record r ov t => exact (recordChange_spec s.history r ov t hinv).2.2.2
  | undo => simpa [runOp, undoEdit_stack] using hlen
  | redo => simpa [runOp, redoEdit_stack] using hlen

/-- Claim C1, amended: starting from the empty history and applying any
sequence of `recordChange`, `undoEdit`, `redoEdit` operations, after each
step the stack holds at most `HISTORY_LIMIT + 1 = 101` entries (101 is
reachable, so the claimed bound of 100 is off by one) and the offset
satisfies `-1 ≤ offset < length(stack)`. -/
theorem C1_history_invariant (ops : List Op) :
    (runOps initES ops).history.stack.length ≤ 101 ∧
    -1 ≤ (runOps initES ops).history.offset ∧
    (runOps initES ops).history.offset < ((runOps initES ops).history.stack.length : Int) := by
  suffices H : ∀ (l : List Op) (s : EditorState),
      histInv s.history ∧ s.history.stack.length ≤ 101 →
      histInv (runOps s l).history ∧ (runOps s l).history.stack.length ≤ 101 by
    have h0 : histInv initES.history ∧ initES.history.stack.length ≤ 101 := by
      exact ⟨⟨by decide, by decide, fun _ => rfl⟩, by decide⟩
    obtain ⟨⟨a, b, c⟩, d⟩ := H ops initES h0
    exact ⟨d, a, b⟩
  intro l
  induction l with
  | nil => intro s h; exact h
  | cons op rest ih =>
    intro s hs
    obtain ⟨hinv, hlen⟩ := hs
    exact ih (runOp s op) ⟨runOp_histInv s op hinv, runOp_len s op hinv hlen⟩

set_option maxRecDepth 8000 in
/-- Claim C1 fails as stated: 101 consecutive `recordChange` calls starting
from the empty history leave 101 entries on the stack, exceeding
`HISTORY_LIMIT = 100` (the limit check runs before the push, so the stack
can hold one extra entry). -/
theorem C1_counterexample :
    100 < (runOps initES (List.replicate 101 (Op.record ⟨[], 0, 0⟩ false 0))).history.stack.length := by
  decide

/-- Claim C5: after an `undoEdit`, recording a new structural edit through
`applyEdits` (coalesce = false) makes the following `redoEdit` a no-op:
`recordChange` first drops every entry after the offset, so no entry exists
at `offset + 1` and the whole editor state is returned unchanged. -/
theorem C5_redo_noop_after_edit (s : EditorState) (r : Rec) (t : Int)
    (hinv : histInv s.history) :
    redoEdit (applyEdits (undoEdit s) r t) = applyEdits (undoEdit s) r t := by
  obtain ⟨htop, _⟩ := applyEdits_history (undoEdit s) r t (histInv_undoEdit s hinv)
  unfold redoEdit
  rw [htop]
  have h1 : ((applyEdits (undoEdit s) r t).history.stack.length : Int) - 1 + 1
      = ((applyEdits (undoEdit s) r t).history.stack.length : Int) := by ring
  rw [h1, getIdx_len]

theorem C5_redo_noop_after_edit_witness :
    redoEdit (applyEdits (undoEdit (mount ⟨[], 0, 0⟩ 0)) ⟨['a'], 1, 1⟩ 5)
      = applyEdits (undoEdit (mount ⟨[], 0, 0⟩ 0)) ⟨['a'], 1, 1⟩ 5 :=
  C5_redo_noop_after_edit (mount ⟨[], 0, 0⟩ 0) ⟨['a'], 1, 1⟩ 5
    ⟨by decide, by decide, fun h => absurd h (by decide)⟩

end SCE

namespace SCE

theorem history_eta (h : History) : (⟨h.stack, h.offset⟩ : History) = h := rfl

theorem getLastD_cons_eq (a d : α) (l : List α) : (a :: l).getLastD d = l.getLastD a := by
  cases l <;> simp [List.getLastD]

theorem trunc_id (h : History) (hne : h.stack ≠ [])
    (htop : h.offset = (h.stack.length : Int) - 1)
    (hlen : h.stack.length ≤ 100) : truncateHistory h = h := by
  unfold truncateHistory
  have hne' : h.stack.length ≠ 0 := fun h0 => hne (List.length_eq_zero.mp h0)
  rw [if_pos ⟨hne', by omega⟩]
  have hslice : jsSlice h.stack 0 (h.offset + 1) = h.stack := by
    rw [jsSlice_zero h.stack (by omega)]
    apply List.take_of_length_le
    omega
  rw [hslice]
  rw [if_neg (by rw [HISTORY_LIMIT]; omega)]

theorem getIdx_append_last (S : List α) (e : α) :
    getIdx (S ++ [e]) (S.length : Int) = some e := by
  rw [getIdx_coe]
  rw [List.get?_eq_get (by simp)]
  simp

theorem setIdx_append_last (S : List α) (e x : α) :
    setIdx (S ++ [e]) (S.length : Int) x = S ++ [x] := by
  unfold setIdx
  rw [if_pos (by positivity)]
  simp [List.set_append]

theorem recordChange_coalesce (S : List HistEntry) (e : HistEntry) (r : Rec) (t : Int)
    (hlen : S.length + 1 ≤ 100) (hgap : t - e.timestamp < HISTORY_TIME_GAP)
    (hmerge : wordMergeOk e.toRec r = true) :
    recordChange ⟨S ++ [e], (S.length : Int)⟩ r true t
      = ⟨S ++ [⟨r, t⟩], (S.length : Int)⟩ := by
  have htr : truncateHistory ⟨S ++ [e], (S.length : Int)⟩ = ⟨S ++ [e], (S.length : Int)⟩ := by
    apply trunc_id
    · simp
    · simp
    · simpa using hlen
  have hidx : getIdx (truncateHistory ⟨S ++ [e], (S.length : Int)⟩).stack
      (truncateHistory ⟨S ++ [e], (S.length : Int)⟩).offset = some e := by
    rw [htr]
    exact getIdx_append_last S e
  rw [recordChange_eq_merge _ r t e hidx hgap hmerge, htr]
  congr 1
  exact setIdx_append_last S e ⟨r, t⟩

/-- Claim C10: the coalescing overwrite stores the current timestamp on the
overwritten top entry, so the 3000 ms gap is measured from the most recent
coalesced record: any chain of native changes in which each change arrives
within `HISTORY_TIME_GAP` of the previous one and passes the word-merge test
collapses into the single top history entry, whatever its length and total
duration; the stack and offset are otherwise untouched. -/
theorem C10_chain_coalesces (S : List HistEntry) (e : HistEntry) (cs : List (Rec × Int))
    (surf : Rec) (ev : List Str) (hlen : S.length + 1 ≤ 100)
    (hchain : chainOK e.toRec e.timestamp cs) :
    (natChanges ⟨⟨S ++ [e], (S.length : Int)⟩, surf, ev⟩ cs).history =
      ⟨S ++ [⟨(cs.map Prod.fst).getLastD e.toRec, (cs.map Prod.snd).getLastD e.timestamp⟩],
        (S.length : Int)⟩ := by
  induction cs generalizing e surf ev with
  | nil => rfl
  | cons c rest ih =>
    obtain ⟨r, t⟩ := c
    obtain ⟨hmono, hgap, hmerge, hrest⟩ := hchain
    have hstep : natChanges ⟨⟨S ++ [e], (S.length : Int)⟩, surf, ev⟩ ((r, t) :: rest)
        = natChanges ⟨⟨S ++ [⟨r, t⟩], (S.length : Int)⟩, r, ev ++ [r.value]⟩ rest := by
      show natChanges (handleChange ⟨⟨S ++ [e], (S.length : Int)⟩, surf, ev⟩ r t) rest = _
      unfold handleChange
      rw [recordChange_coalesce S e r t hlen (by omega) hmerge]
    rw [hstep, ih ⟨r, t⟩ r (ev ++ [r.value]) hrest]
    rw [List.map_cons, List.map_cons, getLastD_cons_eq, getLastD_cons_eq]

theorem C10_chain_coalesces_witness :
    (natChanges ⟨⟨[⟨⟨" ".toList, 1, 1⟩, 0⟩] ++ [⟨⟨" f".toList, 2, 2⟩, 0⟩], (1 : Int)⟩,
        ⟨" f".toList, 2, 2⟩, []⟩
      [(⟨" fo".toList, 3, 3⟩, 100), (⟨" foo".toList, 4, 4⟩, 2500)]).history =
      ⟨[⟨⟨" ".toList, 1, 1⟩, 0⟩] ++ [⟨⟨" foo".toList, 4, 4⟩, 2500⟩], (1 : Int)⟩ := by
  have h := C10_chain_coalesces [⟨⟨" ".toList, 1, 1⟩, 0⟩] ⟨⟨" f".toList, 2, 2⟩, 0⟩
    [(⟨" fo".toList, 3, 3⟩, 100), (⟨" foo".toList, 4, 4⟩, 2500)] ⟨" f".toList, 2, 2⟩ []
    (by decide) ⟨by decide, by decide, by decide, by decide, by decide, by decide, trivial⟩
  simpa using h

end SCE

namespace SCE

theorem takeWhile_append_run (p : α → Bool) (a : List α) (c : α) (b : List α)
    (ha : ∀ x ∈ a, p x = true) (hc : p c = false) :
    (a ++ c :: b).takeWhile p = a := by
  induction a with
  | nil => simp [List.takeWhile_cons, hc]
  | cons x xs ih =>
    have hx : p x = true := ha x (by simp)
    simp [List.takeWhile_cons, hx, ih (fun y hy => ha y (by simp [hy]))]

theorem dropWhile_head_false (p : α → Bool) (l : List α) (c : α) (rest : List α)
    (h : l.dropWhile p = c :: rest) : p c = false := by
  induction l with
  | nil => simp [List.dropWhile] at h
  | cons x xs ih =>
    rw [List.dropWhile_cons] at h
    split at h
    next hpx => exact ih h
    next hpx =>
      cases h
      exact Bool.eq_false_iff.mpr hpx

theorem matchLastWord_some_iff (s w : Str) :
    matchLastWord s = some w ↔
      ∃ p c, s = p ++ c :: w ∧ isWordChar c = false ∧ w ≠ [] ∧
        (∀ x ∈ w, isWordChar x = true) := by
  constructor
  · intro h
    simp only [matchLastWord] at h
    split at h
    case isTrue hcond =>
      obtain ⟨hne, hlt⟩ := hcond
      have hw : trailingRun s = w := Option.some.inj h
      have hsplit : s.reverse = s.reverse.takeWhile isWordChar ++ s.reverse.dropWhile isWordChar :=
        (List.takeWhile_append_dropWhile isWordChar s.reverse).symm
      have hTw : s.reverse.takeWhile isWordChar = w.reverse := by
        rw [← hw]
        unfold trailingRun
        simp
      cases hD : s.reverse.dropWhile isWordChar with
      | nil =>
        exfalso
        rw [hD, List.append_nil, hTw] at hsplit
        have hlen : s.reverse.length = w.reverse.length := by rw [hsplit]
        rw [hw] at hlt
        simp at hlen
        omega
      | cons c rest =>
        have hc : isWordChar c = false := dropWhile_head_false _ _ _ _ hD
        refine ⟨rest.reverse, c, ?_, hc, hw ▸ hne, ?_⟩
        · have hs : s.reverse = w.reverse ++ c :: rest := by
            conv_lhs => rw [hsplit]
            rw [hD, hTw]
          have hs2 : s = (w.reverse ++ c :: rest).reverse := by
            rw [← hs, List.reverse_reverse]
          rw [hs2]
          simp
        · intro x hx
          have hx' : x ∈ s.reverse.takeWhile isWordChar := by
            rw [hTw]
            simpa using hx
          exact List.mem_takeWhile_imp hx'
    case isFalse => exact absurd h (by simp)
  · rintro ⟨p, c, rfl, hc, hwne, hall⟩
    simp only [matchLastWord]
    have htr : trailingRun (p ++ c :: w) = w := by
      unfold trailingRun
      have hrev : (p ++ c :: w).reverse = w.reverse ++ c :: p.reverse := by simp
      rw [hrev, takeWhile_append_run isWordChar w.reverse c p.reverse
        (fun x hx => hall x (by simpa using hx)) hc]
      simp
    rw [htr, if_pos ⟨hwne, by simp; omega⟩]

theorem wordMergeOk_iff (last record : Rec) :
    wordMergeOk last record = true ↔
      ∃ pl cl wl pr cr wr : _,
        (getLines last.value last.selectionStart).getLastD [] = pl ++ cl :: wl ∧
        (getLines record.value record.selectionStart).getLastD [] = pr ++ cr :: wr ∧
        isWordChar cl = false ∧ isWordChar cr = false ∧
        wl ≠ [] ∧ wr ≠ [] ∧
        (∀ x ∈ wl, isWordChar x = true) ∧ (∀ x ∈ wr, isWordChar x = true) ∧
        wl <+: wr := by
  unfold wordMergeOk
  cases hL : matchLastWord ((getLines last.value last.selectionStart).getLastD []) with
  | none =>
    simp only []
    constructor
    · intro h
      exact absurd h (by simp)
    · rintro ⟨pl, cl, wl, pr, cr, wr, hLdec, hRdec, hcl, hcr, hwl, hwr, hal, har, hpre⟩
      have : matchLastWord ((getLines last.value last.selectionStart).getLastD []) = some wl :=
        (matchLastWord_some_iff _ _).mpr ⟨pl, cl, hLdec, hcl, hwl, hal⟩
      rw [hL] at this
      exact absurd this (by simp)
  | some wl0 =>
    cases hR : matchLastWord ((getLines record.value record.selectionStart).getLastD []) with
    | none =>
      simp only []
      constructor
      · intro h
        exact absurd h (by simp)
      · rintro ⟨pl, cl, wl, pr, cr, wr, hLdec, hRdec, hcl, hcr, hwl, hwr, hal, har, hpre⟩
        have : matchLastWord ((getLines record.value record.selectionStart).getLastD [])
            = some wr := (matchLastWord_some_iff _ _).mpr ⟨pr, cr, hRdec, hcr, hwr, har⟩
        rw [hR] at this
        exact absurd this (by simp)
    | some wr0 =>
      simp only []
      rw [List.isPrefixOf_iff_prefix]
      constructor
      · intro hpre
        obtain ⟨pl, cl, hLdec, hcl, hwl, hal⟩ := (matchLastWord_some_iff _ _).mp hL
        obtain ⟨pr, cr, hRdec, hcr, hwr, har⟩ := (matchLastWord_some_iff _ _).mp hR
        exact ⟨pl, cl, wl0, pr, cr, wr0, hLdec, hRdec, hcl, hcr, hwl, hwr, hal, har, hpre⟩
      · rintro ⟨pl, cl, wl, pr, cr, wr, hLdec, hRdec, hcl, hcr, hwl, hwr, hal, har, hpre⟩
        have h1 : matchLastWord ((getLines last.value last.selectionStart).getLastD [])
            = some wl := (matchLastWord_some_iff _ _).mpr ⟨pl, cl, hLdec, hcl, hwl, hal⟩
        have h2 : matchLastWord ((getLines record.value record.selectionStart).getLastD [])
            = some wr := (matchLastWord_some_iff _ _).mpr ⟨pr, cr, hRdec, hcr, hwr, har⟩
        rw [hL] at h1
        rw [hR] at h2
        rw [Option.some.inj h1, Option.some.inj h2]
        exact hpre

end SCE

namespace SCE

/-- Claim C2 fails as stated: typing "f", "o", "o" into an empty document
(records "f"/"fo"/"foo" with carets 1/2/3, each within the 3000 ms gap)
produces three new history entries (stack length 4 including the mount
entry), not one, and a single undo only goes back to "fo": the coalescing
regex `/[^a-z0-9]([a-z0-9]+)$/i` requires a non-alphanumeric character
before the trailing run, which a word at the start of a line does not have. -/
theorem C2_counterexample :
    (handleChange (handleChange (handleChange (mount ⟨[], 0, 0⟩ 0)
        ⟨"f".toList, 1, 1⟩ 100) ⟨"fo".toList, 2, 2⟩ 200)
        ⟨"foo".toList, 3, 3⟩ 300).history.stack.length = 4 ∧
    (undoEdit (handleChange (handleChange (handleChange (mount ⟨[], 0, 0⟩ 0)
        ⟨"f".toList, 1, 1⟩ 100) ⟨"fo".toList, 2, 2⟩ 200)
        ⟨"foo".toList, 3, 3⟩ 300)).surface.value = "fo".toList := by
  decide

/-- Claim C2, amended: the word-merge test succeeds exactly when the lines
before the carets of both the previous entry and the incoming record end in
a non-empty alphanumeric run that is preceded by at least one
non-alphanumeric character, and the incoming run starts with the previous
run.  Consequently typing "f", "o", "o" after a leading space (the word is
preceded by a non-alphanumeric character) produces exactly one new history
entry beyond the mount entry, with final value " foo", and a single undo
removes the whole word, restoring the mount state " ". -/
theorem C2_coalescing :
    ((handleChange (handleChange (handleChange (mount ⟨" ".toList, 1, 1⟩ 0)
        ⟨" f".toList, 2, 2⟩ 100) ⟨" fo".toList, 3, 3⟩ 200)
        ⟨" foo".toList, 4, 4⟩ 2500).history.stack.length = 2 ∧
      ((handleChange (handleChange (handleChange (mount ⟨" ".toList, 1, 1⟩ 0)
        ⟨" f".toList, 2, 2⟩ 100) ⟨" fo".toList, 3, 3⟩ 200)
        ⟨" foo".toList, 4, 4⟩ 2500).history.stack.getLastD ⟨⟨[], 0, 0⟩, 0⟩).value
          = " foo".toList ∧
      (undoEdit (handleChange (handleChange (handleChange (mount ⟨" ".toList, 1, 1⟩ 0)
        ⟨" f".toList, 2, 2⟩ 100) ⟨" fo".toList, 3, 3⟩ 200)
        ⟨" foo".toList, 4, 4⟩ 2500)).surface = ⟨" ".toList, 1, 1⟩) ∧
    (∀ last record : Rec, wordMergeOk last record = true ↔
      ∃ pl cl wl pr cr wr : _,
        (getLines last.value last.selectionStart).getLastD [] = pl ++ cl :: wl ∧
        (getLines record.value record.selectionStart).getLastD [] = pr ++ cr :: wr ∧
        isWordChar cl = false ∧ isWordChar cr = false ∧
        wl ≠ [] ∧ wr ≠ [] ∧
        (∀ x ∈ wl, isWordChar x = true) ∧ (∀ x ∈ wr, isWordChar x = true) ∧
        wl <+: wr) :=
  ⟨by decide, wordMergeOk_iff⟩

end SCE

namespace SCE

/-- Default history entry used with `List.getD`. -/
def dfltEntry : HistEntry := ⟨⟨[], 0, 0⟩, 0⟩

/-- The editor state has stack `S`, cursor `j`, and the surface shows the
entry at the cursor (the situation after any applied edit, undo or redo). -/
def tracks (S : List HistEntry) (j : Nat) (s : EditorState) : Prop :=
  s.history.stack = S ∧ s.history.offset = (j : Int) ∧
    s.surface = (S.getD j dfltEntry).toRec

theorem history_ext (h1 h2 : History) (hs : h1.stack = h2.stack)
    (ho : h1.offset = h2.offset) : h1 = h2 := by
  cases h1
  cases h2
  simp_all

theorem list_set_self (l : List α) (n : Nat) (x : α) (h : l.get? n = some x) :
    l.set n x = l := by
  induction l generalizing n with
  | nil => simp at h
  | cons a as ih =>
    cases n with
    | zero =>
      rw [List.get?_cons_zero] at h
      cases h
      rfl
    | succ m =>
      rw [List.get?_cons_succ] at h
      simp [ih m h]

theorem get?_eq_getD (l : List α) (n : Nat) (d : α) (h : n < l.length) :
    l.get? n = some (l.getD n d) := by
  induction l generalizing n with
  | nil => simp at h
  | cons a as ih =>
    cases n with
    | zero => simp
    | succ m =>
      rw [List.length_cons] at h
      rw [List.get?_cons_succ, List.getD_cons_succ]
      exact ih m (by omega)

end SCE

namespace SCE

theorem tracks_undo (S : List HistEntry) (j : Nat) (s : EditorState)
    (hj : j < S.length) (ht : tracks S j s) : tracks S (j - 1) (undoEdit s) := by
  obtain ⟨hst, hoff, hsurf⟩ := ht
  unfold undoEdit
  rw [hst, hoff]
  cases j with
  | zero =>
    rw [getIdx_neg S (by norm_num)]
    exact ⟨hst, hoff, hsurf⟩
  | succ k =>
    have hcast : ((k + 1 : Nat) : Int) - 1 = (k : Int) := by push_cast; ring
    rw [hcast, getIdx_coe, get?_eq_getD S k dfltEntry (by omega)]
    refine ⟨hst, ?_, rfl⟩
    show max ((k : Int)) 0 = ((k + 1 - 1 : Nat) : Int)
    omega

theorem tracks_redo (S : List HistEntry) (j : Nat) (s : EditorState)
    (hj : j < S.length) (ht : tracks S j s) :
    tracks S (min (j + 1) (S.length - 1)) (redoEdit s) := by
  obtain ⟨hst, hoff, hsurf⟩ := ht
  unfold redoEdit
  rw [hst, hoff]
  by_cases hlt : j + 1 < S.length
  · have hcast : ((j : Nat) : Int) + 1 = ((j + 1 : Nat) : Int) := by push_cast; ring
    rw [hcast, getIdx_coe, get?_eq_getD S (j + 1) dfltEntry hlt]
    have hmin : min (j + 1) (S.length - 1) = j + 1 := by omega
    rw [hmin]
    refine ⟨hst, ?_, rfl⟩
    show min (((j + 1 : Nat) : Int)) ((S.length : Int) - 1) = ((j + 1 : Nat) : Int)
    omega
  · have hnone : getIdx S ((j : Int) + 1) = none := by
      rw [show ((j : Int) + 1) = ((j + 1 : Nat) : Int) from by push_cast; ring, getIdx_coe]
      exact List.get?_eq_none.mpr (by omega)
    rw [hnone]
    have hmin : min (j + 1) (S.length - 1) = j := by omega
    rw [hmin]
    exact ⟨hst, hoff, hsurf⟩

theorem tracks_undo_iter (S : List HistEntry) (j N : Nat) (s : EditorState)
    (hj : j < S.length) (ht : tracks S j s) :
    tracks S (j - N) (undoEdit^[N] s) := by
  induction N generalizing j s with
  | zero => simpa using ht
  | succ n ih =>
    rw [Function.iterate_succ_apply]
    have h2 := ih (j - 1) (undoEdit s) (by omega) (tracks_undo S j s hj ht)
    rw [show j - (n + 1) = (j - 1) - n from by omega]
    exact h2

theorem tracks_redo_iter (S : List HistEntry) (j N : Nat) (s : EditorState)
    (hj : j < S.length) (ht : tracks S j s) :
    tracks S (min (j + N) (S.length - 1)) (redoEdit^[N] s) := by
  induction N generalizing j s with
  | zero =>
    rw [show min (j + 0) (S.length - 1) = j from by omega]
    simpa using ht
  | succ n ih =>
    rw [Function.iterate_succ_apply]
    have h2 := ih (min (j + 1) (S.length - 1)) (redoEdit s) (by omega)
      (tracks_redo S j s hj ht)
    rw [show min (j + (n + 1)) (S.length - 1)
        = min (min (j + 1) (S.length - 1) + n) (S.length - 1) from by omega]
    exact h2

end SCE

namespace SCE

theorem getD_append_last (S : List α) (e d : α) : (S ++ [e]).getD S.length d = e := by
  induction S with
  | nil => rfl
  | cons a as ih => simpa using ih

theorem getLast?_drop_of_lt (S : List α) (k : Nat) (h : k < S.length) :
    (S.drop k).getLast? = S.getLast? := by
  induction S generalizing k with
  | nil => simp at h
  | cons a as ih =>
    cases k with
    | zero => rfl
    | succ m =>
      rw [List.length_cons] at h
      rw [List.drop_succ_cons]
      cases as with
      | nil => simp at h
      | cons b bs =>
        rw [List.getLast?_cons_cons]
        exact ih m (by simpa using h)

theorem trunc_trim (S : List HistEntry) (hne : S ≠ []) (hbig : 100 < S.length) :
    truncateHistory ⟨S, ((S.length - 1 : Nat) : Int)⟩ = ⟨S.drop (S.length - 100), 99⟩ := by
  unfold truncateHistory
  dsimp only
  rw [if_pos ⟨fun h0 => hne (List.length_eq_zero.mp h0), by omega⟩]
  rw [jsSlice_zero S (by omega)]
  have htake : S.take ((((S.length - 1 : Nat) : Int)) + 1).toNat = S := by
    apply List.take_of_length_le
    omega
  rw [htake]
  rw [if_pos (show ((S.length : Int)) > HISTORY_LIMIT by rw [HISTORY_LIMIT]; omega)]
  rw [HISTORY_LIMIT]
  rw [jsSlice_drop_take S (by omega) (by omega) (by omega)]
  have h1 : ((S.length : Int) - 100).toNat = S.length - 100 := by omega
  have h2 : ((S.length : Int) - ((S.length : Int) - 100)).toNat = 100 := by omega
  rw [h1, h2]
  congr 1
  · apply List.take_of_length_le
    simp only [List.length_drop]
    omega
  · omega

end SCE

namespace SCE

theorem mount_tracks (r0 : Rec) (t0 : Int) : tracks [⟨r0, t0⟩] 0 (mount r0 t0) :=
  ⟨rfl, rfl, rfl⟩

theorem applyEdits_tracks (S : List HistEntry) (s : EditorState) (r : Rec) (t : Int)
    (hne : S ≠ []) (ht : tracks S (S.length - 1) s) :
    ∃ T : List HistEntry, T ≠ [] ∧ T.getLast? = S.getLast? ∧
      tracks (T ++ [⟨r, t⟩]) T.length (applyEdits s r t) := by
  obtain ⟨hst, hoff, hsurf⟩ := ht
  have hlen : 1 ≤ S.length := List.length_pos.mpr hne
  unfold applyEdits
  rw [hst, hoff]
  rw [getIdx_coe, get?_eq_getD S (S.length - 1) dfltEntry (by omega)]
  rw [hsurf]
  have hpatch : (⟨⟨(S.getD (S.length - 1) dfltEntry).value,
      (S.getD (S.length - 1) dfltEntry).toRec.selectionStart,
      (S.getD (S.length - 1) dfltEntry).toRec.selectionEnd⟩,
      (S.getD (S.length - 1) dfltEntry).timestamp⟩ : HistEntry)
      = S.getD (S.length - 1) dfltEntry := rfl
  simp only []
  rw [hpatch]
  have hset : setIdx S (((S.length - 1 : Nat) : Int)) (S.getD (S.length - 1) dfltEntry) = S := by
    unfold setIdx
    rw [if_pos (by positivity)]
    rw [Int.toNat_natCast]
    exact list_set_self S (S.length - 1) _ (get?_eq_getD S (S.length - 1) dfltEntry (by omega))
  rw [hset]
  rw [recordChange_false_eq]
  by_cases hcap : S.length ≤ 100
  · refine ⟨S, hne, rfl, ?_⟩
    have htr : truncateHistory ⟨S, ((S.length - 1 : Nat) : Int)⟩ = ⟨S, ((S.length - 1 : Nat) : Int)⟩ := by
      apply trunc_id
      · exact hne
      · show ((S.length - 1 : Nat) : Int) = (S.length : Int) - 1
        omega
      · exact hcap
    rw [htr]
    refine ⟨rfl, ?_, ?_⟩
    · show ((S.length - 1 : Nat) : Int) + 1 = ((S.length : Nat) : Int)
      omega
    · show r = ((S ++ [(⟨r, t⟩ : HistEntry)]).getD S.length dfltEntry).toRec
      rw [getD_append_last]
  · rw [trunc_trim S hne (by omega)]
    refine ⟨S.drop (S.length - 100), ?_, getLast?_drop_of_lt S (S.length - 100) (by omega), ?_⟩
    · have : (S.drop (S.length - 100)).length = 100 := by
        simp only [List.length_drop]
        omega
      intro hnil
      rw [hnil] at this
      simp at this
    · refine ⟨rfl, ?_, ?_⟩
      · show (99 : Int) + 1 = (((S.drop (S.length - 100)).length : Nat) : Int)
        simp only [List.length_drop]
        omega
      · show r = (((S.drop (S.length - 100)) ++ [(⟨r, t⟩ : HistEntry)]).getD
            (S.drop (S.length - 100)).length dfltEntry).toRec
        rw [getD_append_last]

end SCE

namespace SCE

theorem getLastD_irrel (l : List α) (a b : α) (h : l ≠ []) : l.getLastD a = l.getLastD b := by
  cases l with
  | nil => exact absurd rfl h
  | cons x xs => rw [getLastD_cons_eq, getLastD_cons_eq]

theorem getLastD_concat_eq (l : List α) (a d : α) : (l ++ [a]).getLastD d = a := by
  induction l generalizing d with
  | nil => rfl
  | cons x xs ih =>
    rw [List.cons_append, getLastD_cons_eq]
    exact ih x

theorem getD_pred (l : List α) (d : α) (h : l ≠ []) : l.getD (l.length - 1) d = l.getLastD d := by
  induction l generalizing d with
  | nil => exact absurd rfl h
  | cons a as ih =>
    cases as with
    | nil => rfl
    | cons b bs =>
      rw [getLastD_cons_eq]
      have hlen : (a :: b :: bs).length - 1 = (b :: bs).length - 1 + 1 := by simp
      rw [hlen, List.getD_cons_succ]
      rw [ih d (by simp)]
      exact getLastD_irrel _ d a (by simp)

theorem getD_append_left_of_lt (l₁ l₂ : List α) (n : Nat) (d : α) (h : n < l₁.length) :
    (l₁ ++ l₂).getD n d = l₁.getD n d := by
  induction l₁ generalizing n with
  | nil => simp at h
  | cons a as ih =>
    cases n with
    | zero => rfl
    | succ m =>
      rw [List.length_cons] at h
      rw [List.cons_append, List.getD_cons_succ, List.getD_cons_succ]
      exact ih m (by omega)

theorem getLastD_of_getLast? (l₁ l₂ : List α) (d : α) (h : l₁.getLast? = l₂.getLast?) :
    l₁.getLastD d = l₂.getLastD d := by
  rw [List.getLastD_eq_getLast?, List.getLastD_eq_getLast?, h]

end SCE

namespace SCE

theorem applyEditList_tracks (edits : List (Rec × Int)) :
    ∀ (S : List HistEntry) (s : EditorState), S ≠ [] → tracks S (S.length - 1) s →
    ∃ T : List HistEntry, T ≠ [] ∧
      tracks T (T.length - 1) (applyEditList s edits) ∧
      (edits = [] → T = S) ∧
      (T.getLastD dfltEntry).toRec
        = (edits.map Prod.fst).getLastD ((S.getLastD dfltEntry).toRec) ∧
      (edits ≠ [] → 2 ≤ T.length ∧
        (T.getD (T.length - 2) dfltEntry).toRec
          = ((edits.map Prod.fst).dropLast).getLastD ((S.getLastD dfltEntry).toRec)) := by
  induction edits with
  | nil =>
    intro S s hne ht
    exact ⟨S, hne, ht, fun _ => rfl, rfl, fun hc => absurd rfl hc⟩
  | cons e rest ih =>
    intro S s hne ht
    obtain ⟨r, t⟩ := e
    obtain ⟨T1, hT1ne, hT1last, ht1⟩ := applyEdits_tracks S s r t hne ht
    have hS'len : (T1 ++ [(⟨r, t⟩ : HistEntry)]).length - 1 = T1.length := by simp
    have ht1' : tracks (T1 ++ [(⟨r, t⟩ : HistEntry)])
        ((T1 ++ [(⟨r, t⟩ : HistEntry)]).length - 1) (applyEdits s r t) := by
      rw [hS'len]
      exact ht1
    obtain ⟨T, hTne, htT, hTnil, hTlast, hTsec⟩ :=
      ih (T1 ++ [⟨r, t⟩]) (applyEdits s r t) (by simp) ht1'
    have hS'last : ((T1 ++ [(⟨r, t⟩ : HistEntry)]).getLastD dfltEntry) = ⟨r, t⟩ :=
      getLastD_concat_eq T1 _ _
    refine ⟨T, hTne, htT, fun hc => absurd hc (by simp), ?_, ?_⟩
    · rw [hTlast, hS'last, List.map_cons, getLastD_cons_eq]
    · intro _
      cases rest with
      | nil =>
        have hTS' : T = T1 ++ [(⟨r, t⟩ : HistEntry)] := hTnil rfl
        subst hTS'
        constructor
        · have := List.length_pos.mpr hT1ne
          simp only [List.length_append, List.length_singleton]
          omega
        · have hlen2 : (T1 ++ [(⟨r, t⟩ : HistEntry)]).length - 2 = T1.length - 1 := by
            simp only [List.length_append, List.length_singleton]
            omega
          rw [hlen2, getD_append_left_of_lt T1 _ _ _
            (by have := List.length_pos.mpr hT1ne; omega)]
          rw [getD_pred T1 dfltEntry hT1ne]
          rw [getLastD_of_getLast? T1 S dfltEntry hT1last]
          rfl
      | cons e2 rest2 =>
        obtain ⟨hT2, hTsecEq⟩ := hTsec (by simp)
        refine ⟨hT2, ?_⟩
        rw [hTsecEq, hS'last]
        simp only [List.map_cons]
        rw [List.dropLast_cons₂, getLastD_cons_eq]

end SCE

namespace SCE

/-- Claim C4: starting from the mount state, for any sequence of structural
edits ending in some final edit, a single `undoEdit` puts the entry pushed
just before that final edit (back-patch included, which is the identity when
no caret movement intervenes) onto the surface; and for every N, N
`undoEdit`s followed by N `redoEdit`s restore both the history (stack and
offset) and the surface, selection included. -/
theorem C4_undo_redo_inverse (r0 : Rec) (t0 : Int) (edits : List (Rec × Int)) (N : Nat) :
    (∀ es rn tn, edits = es ++ [(rn, tn)] →
      (undoEdit (applyEditList (mount r0 t0) edits)).surface
        = (es.map Prod.fst).getLastD r0) ∧
    ((redoEdit^[N] (undoEdit^[N] (applyEditList (mount r0 t0) edits))).history
        = (applyEditList (mount r0 t0) edits).history ∧
      (redoEdit^[N] (undoEdit^[N] (applyEditList (mount r0 t0) edits))).surface
        = (applyEditList (mount r0 t0) edits).surface) := by
  obtain ⟨T, hTne, htT, hTnil, hTlast, hTsec⟩ :=
    applyEditList_tracks edits [⟨r0, t0⟩] (mount r0 t0) (by simp) (mount_tracks r0 t0)
  constructor
  · intro es rn tn hedits
    obtain ⟨hT2, hsec⟩ := hTsec (by rw [hedits]; simp)
    have hu := tracks_undo T (T.length - 1) _ (by omega) htT
    obtain ⟨_, _, hsurf⟩ := hu
    rw [hsurf]
    have hidx : T.length - 1 - 1 = T.length - 2 := by omega
    rw [hidx, hsec, hedits]
    rw [List.map_append]
    simp only [List.map_cons, List.map_nil]
    rw [List.dropLast_concat]
    rfl
  · have hj : T.length - 1 < T.length := by
      have := List.length_pos.mpr hTne
      omega
    have hu := tracks_undo_iter T (T.length - 1) N _ hj htT
    have hr := tracks_redo_iter T (T.length - 1 - N) N _ (by omega) hu
    have hmin : min (T.length - 1 - N + N) (T.length - 1) = T.length - 1 := by omega
    rw [hmin] at hr
    obtain ⟨hst1, hoff1, hsurf1⟩ := hr
    obtain ⟨hst2, hoff2, hsurf2⟩ := htT
    constructor
    · exact history_ext _ _ (by rw [hst1, hst2]) (by rw [hoff1, hoff2])
    · rw [hsurf1, hsurf2]

theorem C4_undo_redo_inverse_witness :
    (undoEdit (applyEditList (mount ⟨[], 0, 0⟩ 0) [(⟨['a'], 1, 1⟩, 1)])).surface
        = (([] : List (Rec × Int)).map Prod.fst).getLastD ⟨[], 0, 0⟩ ∧
    ((redoEdit^[1] (undoEdit^[1] (applyEditList (mount ⟨[], 0, 0⟩ 0) [(⟨['a'], 1, 1⟩, 1)]))).history
        = (applyEditList (mount ⟨[], 0, 0⟩ 0) [(⟨['a'], 1, 1⟩, 1)]).history ∧
      (redoEdit^[1] (undoEdit^[1] (applyEditList (mount ⟨[], 0, 0⟩ 0) [(⟨['a'], 1, 1⟩, 1)]))).surface
        = (applyEditList (mount ⟨[], 0, 0⟩ 0) [(⟨['a'], 1, 1⟩, 1)]).surface) :=
  ⟨(C4_undo_redo_inverse ⟨[], 0, 0⟩ 0 [(⟨['a'], 1, 1⟩, 1)] 1).1 [] ⟨['a'], 1, 1⟩ 1 rfl,
    (C4_undo_redo_inverse ⟨[], 0, 0⟩ 0 [(⟨['a'], 1, 1⟩, 1)] 1).2⟩

end SCE

namespace SCE

/-- Position of column `c` on line `i`: the number of characters before
line `i` in the joined text (each earlier line contributes its length plus
one for the newline). -/
def lineBase : Nat → List Str → Nat
  | 0, _ => 0
  | _ + 1, [] => 0
  | i + 1, l :: ls => l.length + 1 + lineBase i ls

/-- Total number of characters the unindent strip removes from the lines,
with the first line of the list at relative index 0 and the stripped range
being `[i, j]` in relative indices. -/
def stripTot (tab : Str) (i j : Int) : List Str → Nat
  | [] => 0
  | l :: ls =>
    (if i ≤ 0 ∧ 0 ≤ j ∧ tab.isPrefixOf l then tab.length else 0) + stripTot tab (i - 1) (j - 1) ls

/-- Sum of the line lengths. -/
def sumLens (ls : List Str) : Nat := (ls.map List.length).sum

theorem splitNl_single (l : Str) (h : ∀ ch ∈ l, ch ≠ '\n') : splitNl l = [l] := by
  induction l with
  | nil => rfl
  | cons c cs ih =>
    simp only [splitNl]
    rw [if_neg (h c (by simp))]
    rw [ih (fun ch hch => h ch (by simp [hch]))]

theorem splitNl_append_newline (l t : Str) (h : ∀ ch ∈ l, ch ≠ '\n') :
    splitNl (l ++ '\n' :: t) = l :: splitNl t := by
  induction l with
  | nil => simp [splitNl]
  | cons c cs ih =>
    rw [List.cons_append]
    simp only [splitNl]
    rw [if_neg (h c (by simp))]
    rw [ih (fun ch hch => h ch (by simp [hch]))]

theorem joinNl_cons_ne (l : Str) (ls : List Str) (h : ls ≠ []) :
    joinNl (l :: ls) = l ++ '\n' :: joinNl ls := by
  cases ls with
  | nil => exact absurd rfl h
  | cons l2 ls2 => rfl

theorem splitNl_joinNl (lines : List Str) (hne : lines ≠ [])
    (hnl : ∀ l ∈ lines, ∀ ch ∈ l, ch ≠ '\n') : splitNl (joinNl lines) = lines := by
  induction lines with
  | nil => exact absurd rfl hne
  | cons l rest ih =>
    cases rest with
    | nil => exact splitNl_single l (hnl l (by simp))
    | cons l2 rest2 =>
      rw [joinNl_cons_ne l (l2 :: rest2) (by simp)]
      rw [splitNl_append_newline l _ (hnl l (by simp))]
      rw [ih (by simp) (fun x hx => hnl x (by simp [hx]))]

theorem joinNl_length (lines : List Str) (hne : lines ≠ []) :
    (joinNl lines).length + 1 = sumLens lines + lines.length := by
  induction lines with
  | nil => exact absurd rfl hne
  | cons l rest ih =>
    cases rest with
    | nil => simp [joinNl, sumLens]
    | cons l2 rest2 =>
      rw [joinNl_cons_ne l (l2 :: rest2) (by simp)]
      have := ih (by simp)
      simp only [sumLens, List.map_cons, List.sum_cons, List.length_cons,
        List.length_append] at *
      omega

end SCE

namespace SCE

theorem take_joinNl (lines : List Str) (i c : Nat) (hi : i < lines.length)
    (hc : c ≤ (lines.getD i []).length) :
    (joinNl lines).take (lineBase i lines + c)
      = joinNl (lines.take i ++ [(lines.getD i []).take c]) := by
  induction lines generalizing i with
  | nil => simp at hi
  | cons l rest ih =>
    cases i with
    | zero =>
      cases rest with
      | nil =>
        show (joinNl [l]).take (0 + c) = joinNl [l.take c]
        simp [joinNl]
      | cons l2 rest2 =>
        rw [joinNl_cons_ne l (l2 :: rest2) (by simp)]
        show (l ++ '\n' :: joinNl (l2 :: rest2)).take (0 + c) = joinNl [l.take c]
        rw [Nat.zero_add, List.take_append_eq_append_take]
        have hc' : c ≤ l.length := hc
        rw [show c - l.length = 0 from by omega]
        simp [joinNl]
    | succ i0 =>
      cases rest with
      | nil =>
        rw [List.length_cons] at hi
        simp at hi
      | cons l2 rest2 =>
        rw [joinNl_cons_ne l (l2 :: rest2) (by simp)]
        have hbase : lineBase (i0 + 1) (l :: l2 :: rest2) + c
            = l.length + 1 + (lineBase i0 (l2 :: rest2) + c) := by
          show l.length + 1 + lineBase i0 (l2 :: rest2) + c = _
          omega
        rw [hbase, List.take_append_eq_append_take]
        rw [List.take_of_length_le (show l.length ≤ l.length + 1 + (lineBase i0 (l2 :: rest2) + c) from by omega)]
        rw [show l.length + 1 + (lineBase i0 (l2 :: rest2) + c) - l.length
            = (lineBase i0 (l2 :: rest2) + c) + 1 from by omega]
        rw [List.take_succ_cons]
        rw [ih i0 (by simpa using hi) (by simpa using hc)]
        rw [List.take_succ_cons, List.getD_cons_succ, List.cons_append]
        rw [joinNl_cons_ne _ _ (by simp)]

theorem lineBase_add_le (lines : List Str) (i c : Nat) (hi : i < lines.length)
    (hc : c ≤ (lines.getD i []).length) :
    lineBase i lines + c ≤ (joinNl lines).length := by
  induction lines generalizing i with
  | nil => simp at hi
  | cons l rest ih =>
    cases i with
    | zero =>
      cases rest with
      | nil => simpa [joinNl, lineBase] using hc
      | cons l2 rest2 =>
        rw [joinNl_cons_ne l (l2 :: rest2) (by simp)]
        have hc' : c ≤ l.length := hc
        simp only [lineBase, List.length_append, List.length_cons]
        omega
    | succ i0 =>
      cases rest with
      | nil =>
        rw [List.length_cons] at hi
        simp at hi
      | cons l2 rest2 =>
        rw [joinNl_cons_ne l (l2 :: rest2) (by simp)]
        have := ih i0 (by simpa using hi) (by simpa using hc)
        show l.length + 1 + lineBase i0 (l2 :: rest2) + c ≤ _
        simp only [List.length_append, List.length_cons]
        omega

theorem getLines_at (lines : List Str) (i c : Nat)
    (hnl : ∀ l ∈ lines, ∀ ch ∈ l, ch ≠ '\n') (hi : i < lines.length)
    (hc : c ≤ (lines.getD i []).length) :
    getLines (joinNl lines) ((lineBase i lines + c : Nat) : Int)
      = lines.take i ++ [(lines.getD i []).take c] := by
  unfold getLines
  rw [jsSubstring_zero _ (by positivity), Int.toNat_natCast]
  rw [take_joinNl lines i c hi hc]
  apply splitNl_joinNl _ (by simp)
  intro l hl
  rw [List.mem_append] at hl
  rcases hl with hl | hl
  · exact hnl l (List.mem_of_mem_take hl)
  · rw [List.mem_singleton] at hl
    subst hl
    intro ch hch
    have hmem : (lines.getD i []) ∈ lines := List.get?_mem (get?_eq_getD lines i [] hi)
    exact hnl _ hmem ch (List.mem_of_mem_take hch)

end SCE

namespace SCE

theorem stripMap_cons (tab : Str) (sl el : Int) (k : Nat) (l : Str) (rest : List Str) :
    stripMap tab sl el k (l :: rest)
      = (if sl ≤ (k : Int) ∧ (k : Int) ≤ el ∧ tab.isPrefixOf l
          then l.drop tab.length else l) :: stripMap tab sl el (k + 1) rest := by
  simp [stripMap, List.enumFrom_cons]

theorem stripMap_length (tab : Str) (sl el : Int) (k : Nat) (lines : List Str) :
    (stripMap tab sl el k lines).length = lines.length := by
  simp [stripMap]

theorem isPrefixOf_length_le (tab l : Str) (h : tab.isPrefixOf l = true) :
    tab.length ≤ l.length := by
  rw [List.isPrefixOf_iff_prefix] at h
  exact h.length_le

theorem sumLens_stripMap (tab : Str) (sl el : Int) (lines : List Str) :
    ∀ k : Nat, sumLens (stripMap tab sl el k lines)
      + stripTot tab (sl - (k : Int)) (el - (k : Int)) lines = sumLens lines := by
  induction lines with
  | nil => intro k; simp [stripMap, stripTot, sumLens]
  | cons l rest ih =>
    intro k
    rw [stripMap_cons]
    show sumLens _ + stripTot tab (sl - (k : Int)) (el - (k : Int)) (l :: rest) = _
    rw [show stripTot tab (sl - (k : Int)) (el - (k : Int)) (l :: rest)
        = (if sl - (k : Int) ≤ 0 ∧ 0 ≤ el - (k : Int) ∧ tab.isPrefixOf l
            then tab.length else 0)
          + stripTot tab (sl - (k : Int) - 1) (el - (k : Int) - 1) rest from rfl]
    have hcond : (sl ≤ (k : Int) ∧ (k : Int) ≤ el ∧ tab.isPrefixOf l)
        ↔ (sl - (k : Int) ≤ 0 ∧ 0 ≤ el - (k : Int) ∧ tab.isPrefixOf l) := by
      constructor
      · rintro ⟨a, b, c⟩; exact ⟨by omega, by omega, c⟩
      · rintro ⟨a, b, c⟩; exact ⟨by omega, by omega, c⟩
    have hshift : ∀ x : Int, x - (k : Int) - 1 = x - ((k + 1 : Nat) : Int) := by
      intro x; push_cast; ring
    rw [hshift sl, hshift el]
    have hrec := ih (k + 1)
    simp only [sumLens, List.map_cons, List.sum_cons] at *
    by_cases hp : sl ≤ (k : Int) ∧ (k : Int) ≤ el ∧ tab.isPrefixOf l
    · rw [if_pos hp, if_pos (hcond.mp hp)]
      have hle : tab.length ≤ l.length := isPrefixOf_length_le tab l hp.2.2
      simp only [List.length_drop]
      omega
    · rw [if_neg hp, if_neg (fun hx => hp (hcond.mpr hx))]
      omega

theorem stripTot_neg (tab : Str) (i j : Int) (lines : List Str) (hj : j < 0) :
    stripTot tab i j lines = 0 := by
  induction lines generalizing i j with
  | nil => rfl
  | cons l rest ih =>
    show (if i ≤ 0 ∧ 0 ≤ j ∧ tab.isPrefixOf l then tab.length else 0)
        + stripTot tab (i - 1) (j - 1) rest = 0
    rw [if_neg (fun hx => absurd hx.2.1 (by omega)), ih (i - 1) (j - 1) (by omega)]

end SCE

namespace SCE

theorem stripTot_le_tail (tab : Str) :
    ∀ (lines : List Str) (i' : Int) (j' cj : Nat), i' ≤ 0 → j' < lines.length →
      cj ≤ (lines.getD j' []).length →
      (tab.isPrefixOf (lines.getD j' []) → tab.length ≤ cj) →
      stripTot tab i' (j' : Int) lines ≤ lineBase j' lines + cj := by
  intro lines
  induction lines with
  | nil =>
    intro i' j' cj _ hj _ _
    simp at hj
  | cons l rest ih =>
    intro i' j' cj hi hj hcj hpj
    cases j' with
    | zero =>
      show (if i' ≤ 0 ∧ 0 ≤ ((0 : Nat) : Int) ∧ tab.isPrefixOf l then tab.length else 0)
          + stripTot tab (i' - 1) (((0 : Nat) : Int) - 1) rest ≤ lineBase 0 (l :: rest) + cj
      rw [stripTot_neg tab _ _ rest (by omega)]
      by_cases hp : tab.isPrefixOf l
      · rw [if_pos ⟨hi, by omega, hp⟩]
        have := hpj hp
        show tab.length + 0 ≤ 0 + cj
        omega
      · rw [if_neg (fun hx => hp hx.2.2)]
        omega
    | succ m =>
      show (if i' ≤ 0 ∧ 0 ≤ ((m + 1 : Nat) : Int) ∧ tab.isPrefixOf l then tab.length else 0)
          + stripTot tab (i' - 1) (((m + 1 : Nat) : Int) - 1) rest
          ≤ lineBase (m + 1) (l :: rest) + cj
      rw [show ((m + 1 : Nat) : Int) - 1 = (m : Int) from by push_cast; ring]
      have hrec := ih (i' - 1) m cj (by omega) (by simpa using hj) hcj hpj
      have hamt : (if i' ≤ 0 ∧ 0 ≤ ((m + 1 : Nat) : Int) ∧ tab.isPrefixOf l
          then tab.length else 0) ≤ l.length + 1 := by
        split
        · next hx => exact le_trans (isPrefixOf_length_le tab l hx.2.2) (by omega)
        · omega
      show _ ≤ l.length + 1 + lineBase m rest + cj
      omega

theorem stripTot_main_bound (tab : Str) :
    ∀ (lines : List Str) (i j ci cj : Nat), i ≤ j → j < lines.length →
      ci ≤ (lines.getD i []).length → cj ≤ (lines.getD j []).length →
      (i = j → ci ≤ cj) →
      (tab.isPrefixOf (lines.getD i []) → tab.length ≤ ci) →
      (tab.isPrefixOf (lines.getD j []) → tab.length ≤ cj) →
      stripTot tab (i : Int) (j : Int) lines + lineBase i lines + ci
        ≤ lineBase j lines + cj
          + (if tab.isPrefixOf (lines.getD i []) then tab.length else 0) := by
  intro lines
  induction lines with
  | nil =>
    intro i j ci cj _ hj _ _ _ _ _
    simp at hj
  | cons l rest ih =>
    intro i j ci cj hij hj hci hcj heq hpi hpj
    cases i with
    | zero =>
      cases j with
      | zero =>
        show (if ((0 : Nat) : Int) ≤ 0 ∧ 0 ≤ ((0 : Nat) : Int) ∧ tab.isPrefixOf l
            then tab.length else 0)
            + stripTot tab (((0 : Nat) : Int) - 1) (((0 : Nat) : Int) - 1) rest
            + lineBase 0 (l :: rest) + ci
          ≤ lineBase 0 (l :: rest) + cj + (if tab.isPrefixOf l then tab.length else 0)
        rw [stripTot_neg tab _ _ rest (by omega)]
        have hcc : ci ≤ cj := heq rfl
        by_cases hp : tab.isPrefixOf l
        · rw [if_pos ⟨by omega, by omega, hp⟩, if_pos hp]
          omega
        · rw [if_neg (fun hx => hp hx.2.2), if_neg hp]
          omega
      | succ m =>
        show (if ((0 : Nat) : Int) ≤ 0 ∧ 0 ≤ ((m + 1 : Nat) : Int) ∧ tab.isPrefixOf l
            then tab.length else 0)
            + stripTot tab (((0 : Nat) : Int) - 1) (((m + 1 : Nat) : Int) - 1) rest
            + lineBase 0 (l :: rest) + ci
          ≤ lineBase (m + 1) (l :: rest) + cj + (if tab.isPrefixOf l then tab.length else 0)
        rw [show ((m + 1 : Nat) : Int) - 1 = (m : Int) from by push_cast; ring]
        have htail := stripTot_le_tail tab rest (((0 : Nat) : Int) - 1) m cj
          (by omega) (by simpa using hj) hcj hpj
        have hci' : ci ≤ l.length := hci
        show _ + _ + lineBase 0 (l :: rest) + ci ≤ l.length + 1 + lineBase m rest + cj + _
        by_cases hp : tab.isPrefixOf l
        · rw [if_pos ⟨by omega, by omega, hp⟩, if_pos hp]
          have : lineBase 0 (l :: rest) = 0 := rfl
          omega
        · rw [if_neg (fun hx => hp hx.2.2), if_neg hp]
          have : lineBase 0 (l :: rest) = 0 := rfl
          omega
    | succ i0 =>
      cases j with
      | zero => omega
      | succ j0 =>
        show (if ((i0 + 1 : Nat) : Int) ≤ 0 ∧ 0 ≤ ((j0 + 1 : Nat) : Int) ∧ tab.isPrefixOf l
            then tab.length else 0)
            + stripTot tab (((i0 + 1 : Nat) : Int) - 1) (((j0 + 1 : Nat) : Int) - 1) rest
            + lineBase (i0 + 1) (l :: rest) + ci
          ≤ lineBase (j0 + 1) (l :: rest) + cj
            + (if tab.isPrefixOf ((l :: rest).getD (i0 + 1) []) then tab.length else 0)
        rw [if_neg (fun hx => absurd hx.1 (by push_cast; omega))]
        rw [show ((i0 + 1 : Nat) : Int) - 1 = (i0 : Int) from by push_cast; ring]
        rw [show ((j0 + 1 : Nat) : Int) - 1 = (j0 : Int) from by push_cast; ring]
        have hrec := ih i0 j0 ci cj (by omega) (by simpa using hj) hci hcj
          (fun hx => heq (by omega)) hpi hpj
        show 0 + _ + (l.length + 1 + lineBase i0 rest) + ci
          ≤ (l.length + 1 + lineBase j0 rest) + cj + _
        rw [List.getD_cons_succ]
        rw [List.getD_cons_succ] at hpi
        omega

end SCE

namespace SCE

theorem isPrefixOf_take_iff (tab l : Str) (c : Nat)
    (hc : tab.isPrefixOf l = true → tab.length ≤ c) :
    tab.isPrefixOf (l.take c) = tab.isPrefixOf l := by
  cases hb : tab.isPrefixOf l with
  | true =>
    obtain ⟨t, ht⟩ := List.isPrefixOf_iff_prefix.mp hb
    refine List.isPrefixOf_iff_prefix.mpr ⟨t.take (c - tab.length), ?_⟩
    rw [← ht, List.take_append_eq_append_take, List.take_of_length_le (hc hb)]
  | false =>
    cases hb2 : tab.isPrefixOf (l.take c) with
    | false => rfl
    | true =>
      exfalso
      have h1 : tab <+: l.take c := List.isPrefixOf_iff_prefix.mp hb2
      have h2 : l.take c <+: l := ⟨l.drop c, List.take_append_drop c l⟩
      have h3 := List.isPrefixOf_iff_prefix.mpr (h1.trans h2)
      rw [hb] at h3
      exact Bool.false_ne_true h3

/-- Claim C3, amended: the record produced by the shift+Tab unindent
satisfies `0 ≤ selectionStart ≤ selectionEnd ≤ length(value)` provided
neither selection endpoint lies strictly inside the stripped leading
`tabCharacter` of its own line (if the endpoint's line starts with
`tabCharacter`, the endpoint's column is at least `tabCharacter.length`);
without that proviso the invariant fails (see the counterexample, where
`selectionEnd` becomes `-1`). -/
theorem C3_unindent_invariant (tab : Str) (lines : List Str) (i j ci cj : Nat)
    (hnl : ∀ l ∈ lines, ∀ ch ∈ l, ch ≠ '\n')
    (hij : i ≤ j) (hj : j < lines.length)
    (hci : ci ≤ (lines.getD i []).length) (hcj : cj ≤ (lines.getD j []).length)
    (heq : i = j → ci ≤ cj)
    (hpi : tab.isPrefixOf (lines.getD i []) = true → tab.length ≤ ci)
    (hpj : tab.isPrefixOf (lines.getD j []) = true → tab.length ≤ cj) :
    ∀ r : Rec,
      unindentRecord tab (joinNl lines) ((lineBase i lines + ci : Nat) : Int)
          ((lineBase j lines + cj : Nat) : Int) = some r →
      0 ≤ r.selectionStart ∧ r.selectionStart ≤ r.selectionEnd ∧
        r.selectionEnd ≤ (r.value.length : Int) := by
  intro r hr
  have hi : i < lines.length := lt_of_le_of_lt hij hj
  have hlinesne : lines ≠ [] := by
    intro h0
    rw [h0] at hj
    simp at hj
  simp only [unindentRecord] at hr
  rw [getLines_at lines i ci hnl hi hci, getLines_at lines j cj hnl hj hcj,
      splitNl_joinNl lines hlinesne hnl] at hr
  have hlen1 : ((lines.take i ++ [(lines.getD i []).take ci]).length : Int) - 1 = (i : Int) := by
    simp only [List.length_append, List.length_take, List.length_singleton]
    push_cast
    omega
  have hlen2 : ((lines.take j ++ [(lines.getD j []).take cj]).length : Int) - 1 = (j : Int) := by
    simp only [List.length_append, List.length_take, List.length_singleton]
    push_cast
    omega
  rw [hlen1, hlen2] at hr
  have hslt : getIdx (lines.take i ++ [(lines.getD i []).take ci]) ((lines.take i).length : Int)
      = some ((lines.getD i []).take ci) := getIdx_append_last _ _
  rw [List.length_take, min_eq_left (by omega)] at hslt
  rw [hslt] at hr
  have hsum : sumLens (stripMap tab (i : Int) (j : Int) 0 lines)
      + stripTot tab (i : Int) (j : Int) lines = sumLens lines := by
    have := sumLens_stripMap tab (i : Int) (j : Int) lines 0
    simpa using this
  have hjlen := joinNl_length lines hlinesne
  have hslen : (stripMap tab (i : Int) (j : Int) 0 lines).length = lines.length :=
    stripMap_length _ _ _ _ _
  have hstripne : stripMap tab (i : Int) (j : Int) 0 lines ≠ [] := by
    intro h0
    apply hlinesne
    rw [← List.length_eq_zero, ← hslen, h0]
    rfl
  have hjlen2 := joinNl_length _ hstripne
  rw [hslen] at hjlen2
  have hposle := lineBase_add_le lines j cj hj hcj
  have hmain := stripTot_main_bound tab lines i j ci cj hij hj hci hcj heq hpi hpj
  have hpref := isPrefixOf_take_iff tab (lines.getD i []) ci hpi
  simp only [Option.getD_some] at hr
  split at hr
  case isFalse => exact absurd hr (by simp)
  case isTrue hgne =>
    have hrr := Option.some.inj hr
    subst hrr
    refine ⟨?_, ?_, ?_⟩ <;> dsimp only
    · simp only [hpref]
      by_cases hp : tab.isPrefixOf (lines.getD i []) = true
      · rw [if_pos hp]
        have := hpi hp
        omega
      · rw [if_neg hp]
        positivity
    · simp only [hpref]
      by_cases hp : tab.isPrefixOf (lines.getD i []) = true
      · rw [if_pos hp]
        rw [if_pos hp] at hmain
        omega
      · rw [if_neg hp]
        rw [if_neg hp] at hmain
        omega
    · omega

end SCE

namespace SCE

/-- Claim C3 fails as stated: unindenting `"  x"` with `tabSize = 2`,
`insertSpaces = true` and the (invariant-satisfying) selection `[0, 1]`
produces the record `{value: "x", selectionStart: 0, selectionEnd: -1}`:
two characters are removed, both counted against a `selectionEnd` that had
only one character before it, so `selectionEnd` goes negative and
`selectionStart ≤ selectionEnd` is violated. -/
theorem C3_counterexample :
    unindentRecord (tabCharacter true 2) ("  x".toList) 0 1
        = some ⟨"x".toList, 0, -1⟩ ∧
    (0 ≤ (0 : Int) ∧ (0 : Int) ≤ 1 ∧ (1 : Int) ≤ (("  x".toList).length : Int)) ∧
    ¬ (0 : Int) ≤ -1 := by
  decide

theorem C3_unindent_invariant_witness :
    0 ≤ (⟨"ab\ncd".toList, 0, 4⟩ : Rec).selectionStart ∧
    (⟨"ab\ncd".toList, 0, 4⟩ : Rec).selectionStart
      ≤ (⟨"ab\ncd".toList, 0, 4⟩ : Rec).selectionEnd ∧
    (⟨"ab\ncd".toList, 0, 4⟩ : Rec).selectionEnd
      ≤ (((⟨"ab\ncd".toList, 0, 4⟩ : Rec).value.length : Nat) : Int) :=
  C3_unindent_invariant ("  ".toList) ["  ab".toList, "  cd".toList] 0 1 2 3
    (by decide) (by decide) (by decide) (by decide) (by decide) (by decide)
    (by decide) (by decide) ⟨"ab\ncd".toList, 0, 4⟩ (by decide)

end SCE
